import Mathlib

/-!
Verification development for the file-selection and document-assembly
pipeline of `code_reviewer.py` (class `CodeReviewer`).

The Python functions are shallowly embedded as executable Lean functions:

* strings are Lean `String`s, manipulated mostly through their `List Char`
  representation so that every definition evaluates by kernel reduction;
* `pathlib.Path` values are represented by their root-relative segment
  lists (`List String`); `_build_directory_layout` and `_build_prompt`
  receive the root's base name and the selected files as segment lists,
  which is exactly the data those functions extract from their `Path`
  arguments via `relative_to`;
* the filesystem walked by `_collect_files` is an explicit finitely
  branching tree (`FSEntry`);
* file reading is modelled on byte lists (`List Nat`, each byte `< 256`),
  with CPython's strict UTF-8 decoder made explicit and Latin-1 decoding
  the identity on byte values;
* the regular expression produced by `_should_ignore`'s
  `re.escape` / `replace` pipeline is modelled by its token semantics:
  after escaping, each `*` of the pattern contributes `.*`, each `?`
  contributes `.`, and every other character matches itself literally;
  Python's `.` does not match a newline, and the final `$` of
  `re.match(f"^{regex}$", name)` also accepts one trailing newline.
-/

/-- Character class stripped by Python's `str.strip()` (ASCII whitespace:
space, tab, newline, carriage return, vertical tab, form feed). -/
def pyIsSpace (c : Char) : Bool :=
  c == ' ' || c == '\t' || c == '\x0a' || c == '\x0d' || c == '\x0b' || c == '\x0c'

/-- Python `str.strip()` on the character-list representation: drop
whitespace from both ends. -/
def pyStripL (cs : List Char) : List Char :=
  ((cs.dropWhile pyIsSpace).reverse.dropWhile pyIsSpace).reverse

/-- Python `str.strip()` at `String` level. -/
def pyStrip (s : String) : String :=
  String.mk (pyStripL s.toList)

/-- Token of the matcher obtained from a glob pattern: in
`_should_ignore` the pattern is `re.escape`d and then `\*` is replaced by
`.*` and `\?` by `.`, so each `*` becomes a star token, each `?` a
single-character token, and every other character a literal. -/
inductive GTok where
  | star : GTok
  | qmark : GTok
  | lit : Char → GTok
deriving DecidableEq

/-- Tokenization of a pattern's characters. -/
def toks (cs : List Char) : List GTok :=
  cs.map (fun c => if c == '*' then GTok.star else if c == '?' then GTok.qmark else GTok.lit c)

/-- All ways of splitting a list into a prefix/suffix pair. -/
def splitsList : List Char → List (List Char × List Char)
  | [] => [([], [])]
  | c :: cs => ([], c :: cs) :: (splitsList cs).map (fun pr => (c :: pr.1, pr.2))

/-- No character of the list is a newline. -/
def noNL (cs : List Char) : Bool := cs.all (fun c => c != '\x0a')

/-- Semantics of the regex `_should_ignore` builds (without the trailing
`$` concession): `.*` matches any run of non-newline characters, `.`
matches one non-newline character, literals match themselves, and the
whole name must be consumed. -/
def rOK : List GTok → List Char → Bool
  | [], cs => cs.isEmpty
  | GTok.lit c :: ts, cs =>
    match cs with
    | d :: ds => c == d && rOK ts ds
    | [] => false
  | GTok.qmark :: ts, cs =>
    match cs with
    | d :: ds => d != '\x0a' && rOK ts ds
    | [] => false
  | GTok.star :: ts, cs =>
    (splitsList cs).any (fun pr => noNL pr.1 && rOK ts pr.2)

/-- Semantics of a standard shell glob on the base name (as in
`fnmatch`): `*` matches any characters including newlines, `?` matches
exactly one arbitrary character, anchored at both ends. -/
def gOK : List GTok → List Char → Bool
  | [], cs => cs.isEmpty
  | GTok.lit c :: ts, cs =>
    match cs with
    | d :: ds => c == d && gOK ts ds
    | [] => false
  | GTok.qmark :: ts, cs =>
    match cs with
    | _ :: ds => gOK ts ds
    | [] => false
  | GTok.star :: ts, cs =>
    (splitsList cs).any (fun pr => gOK ts pr.2)

/-- Python's `re.match(f"^{regex}$", name)`: the `$` anchor also matches
just before a newline that ends the string, so the regex may leave one
trailing newline unconsumed. -/
def rmatchD (ts : List GTok) (cs : List Char) : Bool :=
  rOK ts cs || (cs.getLast? == some '\x0a' && rOK ts cs.dropLast)

/-- Hidden-name test of `_should_ignore`: `file_path.name.startswith('.')`. -/
def hiddenName (name : String) : Bool :=
  match name.toList with
  | c :: _ => c == '.'
  | [] => false

/-- One iteration of the pattern loop in `_should_ignore`: strip the
pattern, skip it when empty or a comment, otherwise match by the
translated regex (if it has a wildcard) or by exact name equality. -/
def matchOnePattern (name : String) (pat : String) : Bool :=
  match pyStripL pat.toList with
  | [] => false
  | c :: rest =>
    if c == '#' then false
    else
      if (c :: rest).contains '*' || (c :: rest).contains '?' then
        rmatchD (toks (c :: rest)) name.toList
      else
        name.toList == c :: rest

/-- Embedding of `CodeReviewer._should_ignore`: hidden names are always
ignored, otherwise the name is tested against every pattern. -/
def should_ignore (name : String) (patterns : List String) : Bool :=
  hiddenName name || patterns.any (matchOnePattern name)

/-- Anchored shell-glob match of a pattern against a full base name,
following the specification's words (`*` zero or more characters, `?`
exactly one, everything else literal). -/
def globMatch (pat name : String) : Bool :=
  gOK (toks pat.toList) name.toList

/-- Splitting file content into lines at newline characters; iterating a
Python text file yields exactly these segments (each with its trailing
newline, which the subsequent `strip()` removes). -/
def splitLines : List Char → List (List Char)
  | [] => [[]]
  | c :: rest =>
    if c == '\x0a' then [] :: splitLines rest
    else
      match splitLines rest with
      | [] => [[c]]
      | l :: ls => (c :: l) :: ls

/-- Embedding of `CodeReviewer._load_ignore_patterns` on the text of the
ignore file: `{line.strip() for line in f if line.strip()}`, i.e. every
line stripped, blank lines discarded. -/
def load_ignore_patterns (content : String) : List String :=
  (((splitLines content.toList).map (fun l => String.mk (pyStripL l))).filter
    (fun l => l != ""))

/-- Normalization of line endings performed by `_sanitize_for_json`:
`content.replace('\r\n', '\n').replace('\r', '\n')`.  The two
left-to-right passes amount to: a `\r` immediately followed by `\n`
collapses into that `\n`, every other `\r` becomes `\n`. -/
def normNL : List Char → List Char
  | [] => []
  | '\x0d' :: '\x0a' :: rest => '\x0a' :: normNL rest
  | '\x0d' :: rest => '\x0a' :: normNL rest
  | c :: rest => c :: normNL rest

/-- Embedding of `CodeReviewer._sanitize_for_json` on the character-list
representation: empty content is returned unchanged, otherwise NUL bytes
are removed, line endings normalized, and a final newline appended when
missing. -/
def sanitizeL (cs : List Char) : List Char :=
  if cs.isEmpty then []
  else
    let t := normNL (cs.filter (fun c => c != '\x00'))
    if t.getLast? == some '\x0a' then t else t ++ ['\x0a']

/-- Embedding of `CodeReviewer._sanitize_for_json`. -/
def sanitize_for_json (s : String) : String :=
  String.mk (sanitizeL s.toList)

/-- ASCII lower-casing of one character, modelling Python `str.lower()`
on the ASCII range (every string the language table compares is ASCII). -/
def asciiLower (c : Char) : Char :=
  if 'A' ≤ c ∧ c ≤ 'Z' then Char.ofNat (c.toNat + 32) else c

/-- Python `str.lower()` on ASCII strings. -/
def pyLower (s : String) : String :=
  String.mk (s.toList.map asciiLower)

/-- Python `pathlib.Path.suffix`: the final dotted extension of the base
name, including the dot; empty when the only dot is leading or trailing
or when there is no dot. -/
def pySuffix (name : String) : String :=
  let r := name.toList.reverse
  match r.findIdx? (fun c => c == '.') with
  | none => ""
  | some j => if 1 ≤ j ∧ j < r.length - 1 then String.mk ((r.take (j + 1)).reverse) else ""

/-- The literal language-to-extensions table of `_collect_files`. -/
def extTable (l : String) : Option (List String) :=
  if l == "python" then some [".py"]
  else if l == "javascript" then some [".js", ".jsx", ".ts", ".tsx"]
  else if l == "java" then some [".java"]
  else if l == "cpp" then some [".cpp", ".cc", ".cxx", ".hpp", ".hh", ".h"]
  else if l == "c" then some [".c", ".h"]
  else if l == "go" then some [".go"]
  else if l == "rust" then some [".rs"]
  else if l == "ruby" then some [".rb"]
  else if l == "php" then some [".php"]
  else if l == "html" then some [".html", ".htm"]
  else if l == "css" then some [".css"]
  else if l == "markdown" then some [".md", ".markdown"]
  else none

/-- The language filter as applied by `_collect_files` in directory mode:
no filter configured, or unknown tag, accepts everything; a known tag
accepts exactly the listed lower-cased suffixes. -/
def langAccepts (lang : Option String) (fileName : String) : Bool :=
  match lang with
  | none => true
  | some l =>
    match extTable (pyLower l) with
    | none => true
    | some exts => exts.contains (pyLower (pySuffix fileName))

mutual
/-- A filesystem entry: a regular file or a directory with an ordered
list of children.  Mutual with `FSList` so that the collector below is
structurally recursive. -/
inductive FSEntry where
  | file : String → FSEntry
  | dir : String → FSList → FSEntry

/-- List of filesystem entries. -/
inductive FSList where
  | nil : FSList
  | cons : FSEntry → FSList → FSList
end

/-- Base name of a filesystem entry. -/
def entryName : FSEntry → String
  | FSEntry.file n => n
  | FSEntry.dir n _ => n

mutual
/-- Embedding of `CodeReviewer._collect_files`.  The result is the list
of yielded paths, each as its list of name segments relative to the
parent of the traversal root (so a root file yields its own name, and a
directory root yields paths of its descendants).  A root file is yielded
unless ignored, with no language filtering; a directory's children are
ignored-filtered, files are language-filtered and yielded, and
subdirectories are entered only when `recursive` holds. -/
def collect_files : FSEntry → Bool → List String → Option String → List (List String)
  | FSEntry.file n, _, pats, _ =>
    if should_ignore n pats then [] else [[n]]
  | FSEntry.dir _ children, recursive, pats, lang =>
    collectChildren children recursive pats lang

/-- The directory loop of `_collect_files` over the entries of one
directory. -/
def collectChildren : FSList → Bool → List String → Option String → List (List String)
  | FSList.nil, _, _, _ => []
  | FSList.cons item rest, recursive, pats, lang =>
    (if should_ignore (entryName item) pats then []
     else
       match item with
       | FSEntry.file n => if langAccepts lang n then [[n]] else []
       | FSEntry.dir n cs =>
         if recursive then (collectChildren cs recursive pats lang).map (fun p => n :: p)
         else []) ++ collectChildren rest recursive pats lang
end

/-- Node of the layout tree of `_build_directory_layout`: the Python code
uses nested dictionaries whose values are either `None` (a file leaf) or
a further dictionary (a directory); dictionaries preserve insertion
order, modelled here by association lists. -/
inductive PNode where
  | file : PNode
  | dir : List (String × PNode) → PNode

mutual
/-- Size of a layout node (used as the termination measure of the
renderer). -/
def nsize : PNode → Nat
  | PNode.file => 1
  | PNode.dir cs => 1 + lsize cs

/-- Size of a list of layout entries. -/
def lsize : List (String × PNode) → Nat
  | [] => 0
  | kv :: rest => nsize kv.2 + lsize rest
end

/-- The sort key comparison of `build_tree_lines`:
`sorted(node.items(), key=lambda x: (x[1] is not None, x[0]))`.
A file's value is `None`, so its key flag is `False`; a directory's flag
is `True`; ties are broken by name. -/
def itemLe (a b : String × PNode) : Bool :=
  let fa : Bool := match a.2 with | PNode.file => false | PNode.dir _ => true
  let fb : Bool := match b.2 with | PNode.file => false | PNode.dir _ => true
  (!fa && fb) || (fa == fb && decide (a.1 ≤ b.1))

/-- Insertion step of the (stable) insertion sort modelling Python's
`sorted`. -/
def insertItem (x : String × PNode) : List (String × PNode) → List (String × PNode)
  | [] => [x]
  | y :: ys => if itemLe x y then x :: y :: ys else y :: insertItem x ys

/-- Python `sorted` with the `build_tree_lines` key. -/
def sortNode (l : List (String × PNode)) : List (String × PNode) :=
  l.foldr insertItem []

theorem lsize_insertItem (x : String × PNode) (l : List (String × PNode)) :
    lsize (insertItem x l) = nsize x.2 + lsize l := by
  induction l with
  | nil => simp [insertItem, lsize]
  | cons y ys ih =>
    by_cases h : itemLe x y = true
    · simp [insertItem, h, lsize]
    · simp only [insertItem, h]
      simp [lsize, ih]
      omega

theorem lsize_sortNode (l : List (String × PNode)) :
    lsize (sortNode l) = lsize l := by
  induction l with
  | nil => rfl
  | cons y ys ih =>
    simp only [sortNode, List.foldr] at *
    rw [lsize_insertItem]
    simp [lsize, ih]

theorem nsize_pos (n : PNode) : 1 ≤ nsize n := by
  cases n <;> simp [nsize]

/-- Insertion of one relative path into the layout tree, following the
dictionary navigation of `_build_directory_layout`: intermediate
segments create or reuse directory entries (a new key is appended at the
end, preserving dictionary order), the final segment creates a file leaf
unless the key already exists.  When a segment that is already a file
leaf is navigated as a directory the Python code would fail; filesystem
inputs never produce such a conflict, and the embedding leaves the leaf
unchanged. -/
def insertPath : List (String × PNode) → List String → List (String × PNode)
  | t, [] => t
  | t, [f] => if t.any (fun kv => kv.1 == f) then t else t ++ [(f, PNode.file)]
  | t, d :: rest =>
    if t.any (fun kv => kv.1 == d) then
      t.map (fun kv =>
        if kv.1 == d then
          (kv.1, match kv.2 with
                 | PNode.file => PNode.file
                 | PNode.dir sub => PNode.dir (insertPath sub rest))
        else kv)
    else t ++ [(d, PNode.dir (insertPath [] rest))]

mutual
/-- Embedding of the inner `build_tree_lines` of
`_build_directory_layout`: an empty node yields no lines, otherwise the
entries are rendered sorted by the `(is-directory, name)` key. -/
def build_tree_lines (node : List (String × PNode)) (pref : String) (isLast : Bool)
    (depth : Nat) : List String :=
  if node.isEmpty then [] else renderItems (sortNode node) pref isLast depth
termination_by (lsize node, 1)
decreasing_by
  rw [lsize_sortNode]
  exact Prod.Lex.right _ (by omega)

/-- The `for i, (name, subtree) in enumerate(items)` loop of
`build_tree_lines`.  As in the source, the connector glyph is chosen from
the `is_last` parameter (the flag passed in by the parent), the computed
`is_last_item` flag of the current entry is only forwarded to the
recursive call, and entries at depth zero get no connector at all. -/
def renderItems : List (String × PNode) → String → Bool → Nat → List String
  | [], _, _, _ => []
  | (name, sub) :: rest, pref, isLast, depth =>
    let isLastItem := rest.isEmpty
    let connector := if depth == 0 then "" else if isLast then "└── " else "├── "
    match sub with
    | PNode.file => (pref ++ connector ++ name) :: renderItems rest pref isLast depth
    | PNode.dir children =>
      let nextPref := if depth == 0 then "" else pref ++ (if isLast then "    " else "│   ")
      (pref ++ connector ++ name ++ "/") ::
        (build_tree_lines children nextPref isLastItem (depth + 1) ++
          renderItems rest pref isLast depth)
termination_by l _ _ _ => (lsize l, 0)
decreasing_by
  all_goals apply Prod.Lex.left
  all_goals simp [lsize, nsize]
  all_goals omega
end

/-- Ordering in which Python sorts `Path` values: lexicographic on the
tuple of path segments (the `_cparts` comparison of `pathlib`); with a
common root prefix this coincides with sorting the root-relative
segment lists. -/
def pathLe : List String → List String → Bool
  | [], _ => true
  | _ :: _, [] => false
  | x :: xs, y :: ys => if x == y then pathLe xs ys else decide (x < y)

/-- Insertion step of the stable insertion sort modelling Python
`sorted(files)`. -/
def insertPathSorted (x : List String) : List (List String) → List (List String)
  | [] => [x]
  | y :: ys => if pathLe x y then x :: y :: ys else y :: insertPathSorted x ys

/-- Python `sorted(files)` on root-relative paths. -/
def sortPaths (l : List (List String)) : List (List String) :=
  l.foldr insertPathSorted []

/-- Embedding of `CodeReviewer._build_directory_layout`, taking the base
name of the root and the selected files as root-relative segment lists:
an empty selection returns the fixed placeholder, otherwise the sorted
files are folded into the nested-dictionary tree and rendered beneath the
root line, ending with one blank line. -/
def build_directory_layout (rootName : String) (files : List (List String)) : String :=
  if files.isEmpty then "Directory layout: No files found.\n\n"
  else
    let tree := (sortPaths files).foldl insertPath []
    String.intercalate "\n" ((rootName ++ "/") :: build_tree_lines tree "" true 0) ++ "\n\n"

/-- The string form `str(rel_path)` of a root-relative path: segments
joined by `/`. -/
def relPathStr (p : List String) : String :=
  String.intercalate "/" p

/-- Python `"".join`: concatenation of a list of strings. -/
def sconcat (l : List String) : String :=
  l.foldr (fun a b => a ++ b) ""

/-- Embedding of `CodeReviewer._build_prompt`.  The content of each file
is supplied as a function from its relative path to the result of
`_read_file_safely` (`none` when the file could not be read).  As in the
source, the layout is built from the full file list, then for each
readable file, in sorted order, three pieces are appended to
`file_contents`: the START marker line, the sanitized content, and the
END marker line; the prompt is the layout followed by the joined
pieces. -/
def build_prompt (rootName : String) (files : List (List String))
    (content : List String → Option String) : String :=
  let dir_layout := build_directory_layout rootName files
  let file_contents := (sortPaths files).flatMap (fun p =>
    match content p with
    | none => []
    | some c =>
      ["\n+++ " ++ relPathStr p ++ " START +++\n",
       sanitize_for_json c,
       "\n+++ " ++ relPathStr p ++ " END +++\n"])
  dir_layout ++ sconcat file_contents

/-- Continuation-byte test of the UTF-8 decoder. -/
def isCont (b : Nat) : Bool := 0x80 ≤ b && b < 0xC0

/-- CPython's strict UTF-8 decoder on a byte sequence, producing the
code points, or `none` exactly when `str(..., 'utf-8')` raises
`UnicodeDecodeError`: rejects lone continuation bytes, overlong
encodings, surrogates and code points beyond U+10FFFF. -/
def utf8Decode : List Nat → Option (List Nat)
  | [] => some []
  | b :: rest =>
    if b < 0x80 then (utf8Decode rest).map (fun l => b :: l)
    else if b < 0xC2 then none
    else if b < 0xE0 then
      match rest with
      | b1 :: r =>
        if isCont b1 then
          (utf8Decode r).map (fun l => ((b - 0xC0) * 0x40 + (b1 - 0x80)) :: l)
        else none
      | [] => none
    else if b < 0xF0 then
      match rest with
      | b1 :: b2 :: r =>
        let lo1 := if b == 0xE0 then 0xA0 else 0x80
        let hi1 := if b == 0xED then 0xA0 else 0xC0
        if lo1 ≤ b1 && b1 < hi1 && isCont b2 then
          (utf8Decode r).map
            (fun l => ((b - 0xE0) * 0x1000 + (b1 - 0x80) * 0x40 + (b2 - 0x80)) :: l)
        else none
      | _ => none
    else if b < 0xF5 then
      match rest with
      | b1 :: b2 :: b3 :: r =>
        let lo1 := if b == 0xF0 then 0x90 else 0x80
        let hi1 := if b == 0xF4 then 0x90 else 0xC0
        if lo1 ≤ b1 && b1 < hi1 && isCont b2 && isCont b3 then
          (utf8Decode r).map
            (fun l =>
              ((b - 0xF0) * 0x40000 + (b1 - 0x80) * 0x1000 +
                (b2 - 0x80) * 0x40 + (b3 - 0x80)) :: l)
        else none
      | _ => none
    else none

/-- Latin-1 decoding: every byte value is a code point, so the decoding
is total (this is why the fallback in `_read_file_safely` cannot itself
fail on any byte sequence). -/
def latin1Decode (bs : List Nat) : List Nat := bs

/-- Embedding of `CodeReviewer._read_file_safely` on the file's byte
content: UTF-8 strict decoding is attempted first; on
`UnicodeDecodeError` the total Latin-1 decoding is used.  The `none`
result of the source function arises only from operating-system I/O
errors, which have no counterpart on pure byte content. -/
def read_file_safely (bs : List Nat) : Option (List Nat) :=
  match utf8Decode bs with
  | some cps => some cps
  | none => some (latin1Decode bs)

theorem normNL_no_cr (cs : List Char) : '\x0d' ∉ normNL cs := by
  induction cs using normNL.induct with
  | case1 => simp [normNL]
  | case2 rest ih => simpa [normNL] using ih
  | case3 rest h ih => simpa [normNL] using ih
  | case4 c rest h1 h2 ih =>
    rw [normNL.eq_4 _ _ h1 h2]
    simp only [List.mem_cons]
    rintro (rfl | hm)
    · exact h2 rfl
    · exact ih hm

theorem normNL_mem {c : Char} {cs : List Char} (h : c ∈ normNL cs) :
    c = '\x0a' ∨ c ∈ cs := by
  induction cs using normNL.induct with
  | case1 => simp [normNL] at h
  | case2 rest ih =>
    simp only [normNL, List.mem_cons] at h ⊢
    rcases h with rfl | hm
    · exact Or.inl rfl
    · rcases ih hm with h' | h'
      · exact Or.inl h'
      · exact Or.inr (Or.inr (Or.inr h'))
  | case3 rest h0 ih =>
    simp only [normNL, List.mem_cons] at h ⊢
    rcases h with rfl | hm
    · exact Or.inl rfl
    · rcases ih hm with h' | h'
      · exact Or.inl h'
      · exact Or.inr (Or.inr h')
  | case4 c' rest h1 h2 ih =>
    simp only [normNL, List.mem_cons] at h ⊢
    rcases h with rfl | hm
    · exact Or.inr (Or.inl rfl)
    · rcases ih hm with h' | h'
      · exact Or.inl h'
      · exact Or.inr (Or.inr h')

theorem normNL_eq_self {cs : List Char} (h : '\x0d' ∉ cs) : normNL cs = cs := by
  induction cs using normNL.induct with
  | case1 => rfl
  | case2 rest ih => simp at h
  | case3 rest h0 ih => simp at h
  | case4 c rest h1 h2 ih =>
    simp only [List.mem_cons, not_or] at h
    simp [normNL, ih h.2]

theorem normNL_ne_nil {cs : List Char} (h : cs ≠ []) : normNL cs ≠ [] := by
  induction cs using normNL.induct with
  | case1 => exact absurd rfl h
  | case2 rest ih => simp [normNL]
  | case3 rest h0 ih => simp [normNL]
  | case4 c rest h1 h2 ih => simp [normNL]

theorem getLast?_cons_of_ne_nil {a : Char} {l : List Char} (h : l ≠ []) :
    (a :: l).getLast? = l.getLast? := by
  cases l with
  | nil => exact absurd rfl h
  | cons b t => simp [List.getLast?_cons_cons]

theorem normNL_getLast {cs : List Char} (h : cs.getLast? = some '\x0a') :
    (normNL cs).getLast? = some '\x0a' := by
  induction cs using normNL.induct with
  | case1 => simp at h
  | case2 rest ih =>
    by_cases hr : rest = []
    · subst hr; simp [normNL]
    · rw [getLast?_cons_of_ne_nil (by simp), getLast?_cons_of_ne_nil hr] at h
      rw [normNL, getLast?_cons_of_ne_nil (normNL_ne_nil hr)]
      exact ih h
  | case3 rest h0 ih =>
    by_cases hr : rest = []
    · subst hr; simp at h
    · rw [getLast?_cons_of_ne_nil hr] at h
      rw [normNL.eq_3 _ h0, getLast?_cons_of_ne_nil (normNL_ne_nil hr)]
      exact ih h
  | case4 c rest h1 h2 ih =>
    by_cases hr : rest = []
    · subst hr
      simp only [List.getLast?_singleton, Option.some.injEq] at h
      subst h
      rw [normNL.eq_4 _ _ h1 h2]
      simp [normNL]
    · rw [getLast?_cons_of_ne_nil hr] at h
      rw [normNL.eq_4 _ _ h1 h2, getLast?_cons_of_ne_nil (normNL_ne_nil hr)]
      exact ih h

theorem sanitizeL_no_nul {cs : List Char} (h : cs ≠ []) : '\x00' ∉ sanitizeL cs := by
  simp only [sanitizeL, List.isEmpty_iff, h, if_false]
  intro hm
  have hnul : '\x00' ∉ normNL (cs.filter (fun c => c != '\x00')) := by
    intro hm'
    rcases normNL_mem hm' with h' | h'
    · exact absurd h' (by decide)
    · have := List.of_mem_filter h'
      simp at this
  by_cases hb : (normNL (cs.filter (fun c => c != '\x00'))).getLast? == some '\x0a'
  · rw [if_pos hb] at hm
    exact hnul hm
  · rw [if_neg hb] at hm
    rcases List.mem_append.mp hm with h' | h'
    · exact hnul h'
    · simp at h'

theorem sanitizeL_no_cr {cs : List Char} (h : cs ≠ []) : '\x0d' ∉ sanitizeL cs := by
  simp only [sanitizeL, List.isEmpty_iff, h, if_false]
  intro hm
  have hcr := normNL_no_cr (cs.filter (fun c => c != '\x00'))
  by_cases hb : (normNL (cs.filter (fun c => c != '\x00'))).getLast? == some '\x0a'
  · rw [if_pos hb] at hm
    exact hcr hm
  · rw [if_neg hb] at hm
    rcases List.mem_append.mp hm with h' | h'
    · exact hcr h'
    · simp at h'

theorem sanitizeL_getLast {cs : List Char} (h : cs ≠ []) :
    (sanitizeL cs).getLast? = some '\x0a' := by
  simp only [sanitizeL, List.isEmpty_iff, h, if_false]
  by_cases hb : (normNL (cs.filter (fun c => c != '\x00'))).getLast? == some '\x0a'
  · rw [if_pos hb]
    exact eq_of_beq hb
  · rw [if_neg hb]
    exact List.getLast?_concat _

theorem sanitizeL_ne_nil {cs : List Char} (h : cs ≠ []) : sanitizeL cs ≠ [] := by
  intro he
  have := sanitizeL_getLast h
  rw [he] at this
  simp at this

theorem sanitizeL_idem (cs : List Char) : sanitizeL (sanitizeL cs) = sanitizeL cs := by
  by_cases h : cs = []
  · subst h; rfl
  · have hne := sanitizeL_ne_nil h
    have hfix : (sanitizeL cs).filter (fun c => c != '\x00') = sanitizeL cs := by
      apply List.filter_eq_self.mpr
      intro c hc
      have : c ≠ '\x00' := by
        intro hc'; subst hc'; exact sanitizeL_no_nul h hc
      simpa using this
    have hnorm : normNL (sanitizeL cs) = sanitizeL cs :=
      normNL_eq_self (sanitizeL_no_cr h)
    have key : ∀ ds : List Char, ds ≠ [] → ds.filter (fun c => c != '\x00') = ds →
        normNL ds = ds → ds.getLast? = some '\x0a' → sanitizeL ds = ds := by
      intro ds hdne hf hn hl
      simp only [sanitizeL, List.isEmpty_iff, hdne, if_false, hf, hn, hl]
      simp
    exact key (sanitizeL cs) hne hfix hnorm (sanitizeL_getLast h)

theorem toList_ne_nil {s : String} (h : s ≠ "") : s.toList ≠ [] := by
  intro he
  apply h
  cases s with
  | mk data =>
    cases data with
    | nil => rfl
    | cons c cs => simp [String.toList] at he

/-- C6 counterexample: the empty string is successfully read content (an
empty file decodes fine), yet `_sanitize_for_json` returns it unchanged,
with no trailing newline, because of the early `if not content: return ""`
branch.  This falsifies the claim that the output ends with a newline for
every successfully read content string. -/
theorem sanitize_empty_counterexample :
    sanitize_for_json "" = "" ∧ (sanitize_for_json "").toList.getLast? ≠ some '\x0a' := by
  exact ⟨rfl, by decide⟩

/-- C6 amended: for every non-empty content string the output of
`_sanitize_for_json` contains no NUL and no carriage-return character and
ends in a newline; moreover when the input already ends with a newline
no newline is appended (the output is exactly the NUL-stripped,
line-ending-normalized content).  Empty input is returned unchanged, as
the counterexample shows. -/
theorem sanitize_output_normalized (s : String) (h : s ≠ "") :
    '\x00' ∉ (sanitize_for_json s).toList ∧
    '\x0d' ∉ (sanitize_for_json s).toList ∧
    (sanitize_for_json s).toList.getLast? = some '\x0a' ∧
    (s.toList.getLast? = some '\x0a' →
      (sanitize_for_json s).toList = normNL (s.toList.filter (fun c => c != '\x00'))) := by
  have hne := toList_ne_nil h
  refine ⟨sanitizeL_no_nul hne, sanitizeL_no_cr hne, sanitizeL_getLast hne, ?_⟩
  intro hl
  have hfl : (s.toList.filter (fun c => c != '\x00')).getLast? = some '\x0a' := by
    obtain ⟨l, hl'⟩ : ∃ l, s.toList = l ++ ['\x0a'] := by
      have := List.dropLast_append_getLast? _ hl
      exact ⟨s.toList.dropLast, this.symm⟩
    rw [hl', List.filter_append]
    simp
  have ht := normNL_getLast hfl
  show sanitizeL s.toList = _
  simp only [sanitizeL, List.isEmpty_iff, hne, if_false, ht]
  simp

/-- C6 witness: the amended theorem applied at the concrete non-empty
content consisting of a single letter followed by a carriage return. -/
theorem sanitize_output_normalized_witness :
    '\x00' ∉ (sanitize_for_json "a\x0d").toList ∧
    '\x0d' ∉ (sanitize_for_json "a\x0d").toList ∧
    (sanitize_for_json "a\x0d").toList.getLast? = some '\x0a' ∧
    ("a\x0d".toList.getLast? = some '\x0a' →
      (sanitize_for_json "a\x0d").toList =
        normNL ("a\x0d".toList.filter (fun c => c != '\x00'))) :=
  sanitize_output_normalized "a\x0d" (by decide)

/-- C10: `_sanitize_for_json` is idempotent — sanitized output is a fixed
point of the sanitizer: no NUL or carriage return remains to remove, and
the final-newline branch never fires a second time (the empty string maps
to itself). -/
theorem sanitize_idempotent (s : String) :
    sanitize_for_json (sanitize_for_json s) = sanitize_for_json s := by
  show String.mk (sanitizeL (String.mk (sanitizeL s.toList)).toList) = _
  have : (String.mk (sanitizeL s.toList)).toList = sanitizeL s.toList := rfl
  rw [this, sanitizeL_idem]
  rfl

/-- C7: `_read_file_safely` never raises for any byte content: UTF-8
decoding is attempted first and its result returned on success; on a
decode failure the Latin-1 decoding — total on arbitrary byte values —
is returned instead, so some content is always produced.  (The `none`
result of the source function corresponds to operating-system I/O
failures, outside the pure byte-content model; on content alone the
fallback chain never fails.) -/
theorem read_file_safely_total (bs : List Nat) :
    (read_file_safely bs).isSome = true ∧
    (∀ cps, utf8Decode bs = some cps → read_file_safely bs = some cps) ∧
    (utf8Decode bs = none → read_file_safely bs = some (latin1Decode bs)) := by
  refine ⟨?_, ?_, ?_⟩ <;> simp only [read_file_safely]
  · cases utf8Decode bs <;> simp
  · intro cps h
    rw [h]
  · intro h
    rw [h]

/-- C7 witness: the theorem applied at a byte sequence that is not valid
UTF-8 (a lone 0xFF byte) and at a valid ASCII byte sequence. -/
theorem read_file_safely_total_witness :
    (read_file_safely [255]).isSome = true ∧
    read_file_safely [255] = some (latin1Decode [255]) ∧
    read_file_safely [65] = some [65] :=
  ⟨(read_file_safely_total [255]).1,
   (read_file_safely_total [255]).2.2 (by decide),
   (read_file_safely_total [65]).2.1 [65] (by decide)⟩

/-- C1: evaluation of `_build_directory_layout` at the round-trip example
of the specification, files `a.py` and `sub/b.py` under root `root`.  The
rendered tree lists the file `a.py` BEFORE the directory `sub/`: the sort
key `(x[1] is not None, x[0])` of `build_tree_lines` is `False` for files
(`None` values) and `True` for directories, so files sort first, the
opposite of the claim and of the source comment that says directories
come first. -/
theorem layout_eval_files_sort_first :
    build_directory_layout "root" [["a.py"], ["sub", "b.py"]] =
      "root/\na.py\nsub/\n└── b.py\n\n" := by
  simp +decide [build_directory_layout, sortPaths, insertPathSorted, pathLe, insertPath,
    build_tree_lines, renderItems, sortNode, insertItem, itemLe]

/-- C2: evaluation of `_build_directory_layout` on files `sub/a.py` and
`sub/b.py`.  The entry `a.py` is not the last child of `sub/`, yet it is
drawn with the corner connector: `build_tree_lines` chooses the connector
from the `is_last` flag passed by the parent (`sub/` was last at its own
level) instead of the entry's computed `is_last_item`, and the top-level
entry `sub/` is drawn with no connector at all because of the
`depth == 0` special case. -/
theorem layout_eval_connector_from_parent :
    build_directory_layout "root" [["sub", "a.py"], ["sub", "b.py"]] =
      "root/\nsub/\n└── a.py\n└── b.py\n\n" := by
  simp +decide [build_directory_layout, sortPaths, insertPathSorted, pathLe, insertPath,
    build_tree_lines, renderItems, sortNode, insertItem, itemLe]

theorem list_any_filter_eq {α : Type} (l : List α) (f g : α → Bool)
    (h : ∀ x ∈ l, g x = false → f x = false) :
    l.any f = (l.filter g).any f := by
  induction l with
  | nil => rfl
  | cons a t ih =>
    have ht : ∀ x ∈ t, g x = false → f x = false := fun x hx => h x (List.mem_cons_of_mem a hx)
    by_cases hg : g a = true
    · simp [List.filter_cons, hg, List.any_cons, ih ht]
    · have hga : g a = false := by simpa using hg
      have hfa : f a = false := h a (List.mem_cons_self a t) hga
      simp [List.filter_cons, hga, List.any_cons, hfa, ih ht]

theorem matchOnePattern_comment_false (name p : String)
    (h : (pyStripL p.toList).head? = some '#') :
    matchOnePattern name p = false := by
  rw [matchOnePattern]
  rcases hs : pyStripL p.toList with _ | ⟨c, rest⟩
  · rfl
  · rw [hs] at h
    simp only [List.head?_cons, Option.some.injEq] at h
    subst h
    simp

/-- C8 counterexample: loading an ignore file whose single line is the
comment `#foo` yields a pattern set that still contains `#foo`, a line
starting with `#` — `_load_ignore_patterns` discards only blank lines at
load time; comment lines are kept and only skipped later inside
`_should_ignore`. -/
theorem load_patterns_keep_comment_lines :
    load_ignore_patterns "#foo\x0a" = ["#foo"] ∧
    ("#foo" : String).toList.head? = some '#' := by
  exact ⟨by decide, by decide⟩

/-- C8 amended: the pattern set returned by `_load_ignore_patterns`
contains no empty strings (blank lines are discarded at load time), and
although comment lines are retained in the set, they are discarded by the
matcher: `_should_ignore` gives the same answer on the loaded set as on
the loaded set with every pattern whose stripped form starts with `#`
removed, for every ignore-file content and every file name. -/
theorem load_patterns_amended (content : String) :
    (∀ p ∈ load_ignore_patterns content, p ≠ "") ∧
    (∀ name : String,
      should_ignore name (load_ignore_patterns content) =
        should_ignore name ((load_ignore_patterns content).filter
          (fun p => !((pyStripL p.toList).head? == some '#')))) := by
  constructor
  · intro p hp
    have := List.of_mem_filter hp
    simpa using this
  · intro name
    rw [should_ignore, should_ignore]
    congr 1
    apply list_any_filter_eq
    intro p _ hg
    apply matchOnePattern_comment_false
    have : ¬ ((pyStripL p.toList).head? == some '#') = false := by
      simpa using hg
    rcases h' : (pyStripL p.toList).head? == some '#' with _ | _
    · exact absurd h' this
    · exact eq_of_beq h'

/-- C8 witness: the amended theorem applied at the concrete ignore-file
content with a comment line and a pattern line. -/
theorem load_patterns_amended_witness :
    "#foo" ≠ "" ∧
    should_ignore "x.log" (load_ignore_patterns "#foo\x0a*.log\x0a") =
      should_ignore "x.log" ((load_ignore_patterns "#foo\x0a*.log\x0a").filter
        (fun p => !((pyStripL p.toList).head? == some '#'))) :=
  ⟨(load_patterns_amended "#foo\x0a*.log\x0a").1 "#foo" (by decide),
   (load_patterns_amended "#foo\x0a*.log\x0a").2 "x.log"⟩

theorem hiddenName_false_head {n : String} (h : hiddenName n = false) :
    n.toList.head? ≠ some '.' := by
  rw [hiddenName] at h
  rcases hl : n.toList with _ | ⟨c, rest⟩
  · simp
  · rw [hl] at h
    simp only [List.head?_cons, ne_eq, Option.some.injEq]
    intro hc
    subst hc
    simp at h

theorem should_ignore_false_not_hidden {n : String} {pats : List String}
    (h : should_ignore n pats = false) : n.toList.head? ≠ some '.' := by
  rw [should_ignore, Bool.or_eq_false_iff] at h
  exact hiddenName_false_head h.1

mutual
theorem collect_entry_no_hidden (e : FSEntry) (r : Bool) (pats : List String)
    (lang : Option String) :
    ∀ p ∈ collect_files e r pats lang, ∀ s ∈ p, s.toList.head? ≠ some '.' := by
  cases e with
  | file n =>
    intro p hp s hs
    rw [collect_files] at hp
    by_cases hig : should_ignore n pats = true
    · rw [if_pos hig] at hp
      simp at hp
    · rw [if_neg hig] at hp
      have hig' : should_ignore n pats = false := by simpa using hig
      simp only [List.mem_singleton] at hp
      subst hp
      simp only [List.mem_singleton] at hs
      subst hs
      exact should_ignore_false_not_hidden hig'
  | dir n children =>
    intro p hp s hs
    rw [collect_files] at hp
    exact collect_list_no_hidden children r pats lang p hp s hs

theorem collect_list_no_hidden (l : FSList) (r : Bool) (pats : List String)
    (lang : Option String) :
    ∀ p ∈ collectChildren l r pats lang, ∀ s ∈ p, s.toList.head? ≠ some '.' := by
  cases l with
  | nil =>
    intro p hp
    rw [collectChildren.eq_def] at hp
    simp at hp
  | cons item rest =>
    intro p hp s hs
    rw [collectChildren.eq_def] at hp
    rcases List.mem_append.mp hp with hleft | hright
    · by_cases hig : should_ignore (entryName item) pats = true
      · rw [if_pos hig] at hleft
        simp at hleft
      · rw [if_neg hig] at hleft
        have hig' : should_ignore (entryName item) pats = false := by simpa using hig
        cases item with
        | file n =>
          dsimp only at hleft
          by_cases hla : langAccepts lang n = true
          · rw [if_pos hla] at hleft
            simp only [List.mem_singleton] at hleft
            subst hleft
            simp only [List.mem_singleton] at hs
            subst hs
            exact should_ignore_false_not_hidden (by simpa [entryName] using hig')
          · rw [if_neg hla] at hleft
            simp at hleft
        | dir n cs =>
          dsimp only at hleft
          by_cases hr : r = true
          · rw [if_pos hr] at hleft
            obtain ⟨p', hp', rfl⟩ := List.mem_map.mp hleft
            rcases List.mem_cons.mp hs with rfl | hs'
            · exact should_ignore_false_not_hidden (by simpa [entryName] using hig')
            · exact collect_list_no_hidden cs r pats lang p' hp' s hs'
          · rw [if_neg hr] at hleft
            simp at hleft
    · exact collect_list_no_hidden rest r pats lang p hright s hs
end

/-- C9: every file name starting with a dot is ignored by
`_should_ignore` for every pattern set, including the empty one; and
consequently no path yielded by `_collect_files` — from any filesystem
tree, recursion flag, pattern set and language filter — contains a
segment starting with a dot: hidden files are never yielded and hidden
directories are never descended into. -/
theorem hidden_names_always_ignored :
    (∀ (name : String) (pats : List String),
      name.toList.head? = some '.' → should_ignore name pats = true) ∧
    (∀ (e : FSEntry) (r : Bool) (pats : List String) (lang : Option String)
      (p : List String), p ∈ collect_files e r pats lang →
        ∀ s ∈ p, s.toList.head? ≠ some '.') := by
  constructor
  · intro name pats h
    rw [should_ignore, hiddenName]
    rcases hl : name.toList with _ | ⟨c, rest⟩
    · rw [hl] at h
      simp at h
    · rw [hl] at h
      simp only [List.head?_cons, Option.some.injEq] at h
      subst h
      simp
  · exact fun e r pats lang => collect_entry_no_hidden e r pats lang

/-- C9 witness: the hidden file `.x` is ignored with the empty pattern
set, and the path yielded for the visible single file `a` contains no
hidden segment. -/
theorem hidden_names_always_ignored_witness :
    should_ignore ".x" [] = true ∧ ("a" : String).toList.head? ≠ some '.' :=
  ⟨hidden_names_always_ignored.1 ".x" [] (by decide),
   hidden_names_always_ignored.2 (FSEntry.file "a") false [] none ["a"] (by decide)
     "a" (by decide)⟩

/-- C5: when the traversal root is a regular file, `_collect_files`
yields it iff `_should_ignore` is false for its name, and neither the
`recursive` flag nor the language filter affects the result for ANY
language tag — shown by the result being independent of both arguments,
and concretely by `readme.md` being yielded in single-file mode under the
`python` filter while the very same file is excluded (and `main.py`
included) in directory mode. -/
theorem single_file_mode_skips_language_filter :
    (∀ (n : String) (r r' : Bool) (pats : List String) (lang lang' : Option String),
      collect_files (FSEntry.file n) r pats lang =
        collect_files (FSEntry.file n) r' pats lang') ∧
    (∀ (n : String) (r : Bool) (pats : List String) (lang : Option String),
      (collect_files (FSEntry.file n) r pats lang = [[n]] ↔
        should_ignore n pats = false)) ∧
    collect_files
      (FSEntry.dir "src" (FSList.cons (FSEntry.file "readme.md")
        (FSList.cons (FSEntry.file "main.py") FSList.nil)))
      false [] (some "python") = [["main.py"]] ∧
    collect_files (FSEntry.file "readme.md") false [] (some "python") =
      [["readme.md"]] := by
  refine ⟨?_, ?_, by decide, by decide⟩
  · intro n r r' pats lang lang'
    rw [collect_files, collect_files]
  · intro n r pats lang
    rw [collect_files]
    by_cases h : should_ignore n pats = true
    · simp [h]
    · have h' : should_ignore n pats = false := by simpa using h
      simp [h']

theorem list_any_congr {α : Type} {l : List α} {f g : α → Bool}
    (h : ∀ x ∈ l, f x = g x) : l.any f = l.any g := by
  induction l with
  | nil => rfl
  | cons a t ih =>
    simp only [List.any_cons, h a (List.mem_cons_self a t),
      ih (fun x hx => h x (List.mem_cons_of_mem a hx))]

theorem splitsList_append {cs : List Char} :
    ∀ pr ∈ splitsList cs, pr.1 ++ pr.2 = cs := by
  induction cs with
  | nil =>
    intro pr hpr
    simp only [splitsList, List.mem_singleton] at hpr
    subst hpr
    rfl
  | cons c cs ih =>
    intro pr hpr
    simp only [splitsList, List.mem_cons] at hpr
    rcases hpr with rfl | hpr
    · rfl
    · obtain ⟨q, hq, rfl⟩ := List.mem_map.mp hpr
      simp [ih q hq]

theorem noNL_append_left {a b : List Char} (h : noNL (a ++ b) = true) : noNL a = true := by
  simp only [noNL, List.all_append, Bool.and_eq_true] at h
  exact h.1

theorem noNL_append_right {a b : List Char} (h : noNL (a ++ b) = true) : noNL b = true := by
  simp only [noNL, List.all_append, Bool.and_eq_true] at h
  exact h.2

theorem rOK_eq_gOK (ts : List GTok) (cs : List Char) (h : noNL cs = true) :
    rOK ts cs = gOK ts cs := by
  induction ts generalizing cs with
  | nil => rfl
  | cons t ts ih =>
    cases t with
    | lit c =>
      cases cs with
      | nil => rfl
      | cons d ds =>
        have hds : noNL ds = true := noNL_append_right (a := [d]) (by simpa using h)
        simp only [rOK, gOK, ih ds hds]
    | qmark =>
      cases cs with
      | nil => rfl
      | cons d ds =>
        have hd : (d != '\x0a') = true := by
          simp only [noNL, List.all_cons, Bool.and_eq_true] at h
          exact h.1
        have hds : noNL ds = true := by
          simp only [noNL, List.all_cons, Bool.and_eq_true] at h
          exact h.2
        simp only [rOK, gOK, hd, Bool.true_and, ih ds hds]
    | star =>
      simp only [rOK, gOK]
      apply list_any_congr
      intro pr hpr
      have hsplit := splitsList_append pr hpr
      have h1 : noNL pr.1 = true := noNL_append_left (hsplit ▸ h)
      have h2 : noNL pr.2 = true := noNL_append_right (hsplit ▸ h)
      simp only [h1, Bool.true_and, ih pr.2 h2]

theorem noNL_getLast_ne {cs : List Char} (h : noNL cs = true) :
    cs.getLast? ≠ some '\x0a' := by
  intro hl
  have hmem : '\x0a' ∈ cs := by
    have := List.dropLast_append_getLast? (l := cs) '\x0a' (by simp [hl])
    rw [← this]
    simp
  simp only [noNL, List.all_eq_true] at h
  have := h '\x0a' hmem
  simp at this

theorem rmatchD_eq_rOK (ts : List GTok) (cs : List Char) (h : noNL cs = true) :
    rmatchD ts cs = rOK ts cs := by
  have hl : (cs.getLast? == some '\x0a') = false := by
    rcases hb : cs.getLast? == some '\x0a' with _ | _
    · rfl
    · exact absurd (eq_of_beq hb) (noNL_getLast_ne h)
  simp [rmatchD, hl]

/-- C4 counterexample: as stated over all patterns and names, the claim
fails.  Four concrete divergences: the name consisting of one newline is
matched by the shell glob `?` but not by `_should_ignore` (Python's `.`
does not match a newline); the hidden name `.a` is ignored although the
glob `x*` does not match it; the comment pattern `#*` is skipped by
`_should_ignore` although the shell glob matches `#x`; and the padded
pattern with a leading space is matched after stripping, although the
shell glob on the unstripped pattern requires the space. -/
theorem should_ignore_glob_counterexample :
    (¬ ∀ (p name : String),
      (p.toList.contains '*' || p.toList.contains '?') = true →
        should_ignore name [p] = globMatch p name) ∧
    should_ignore "\x0a" ["?"] = false ∧ globMatch "?" "\x0a" = true ∧
    should_ignore ".a" ["x*"] = true ∧ globMatch "x*" ".a" = false ∧
    should_ignore "#x" ["#*"] = false ∧ globMatch "#*" "#x" = true ∧
    should_ignore "ab" [" a*"] = true ∧ globMatch " a*" "ab" = false := by
  refine ⟨?_, by decide, by decide, by decide, by decide, by decide, by decide,
    by decide, by decide⟩
  intro h
  have := h "?" "\x0a" (by decide)
  exact absurd this (by decide)

theorem string_eq_iff_toList {a b : String} : a = b ↔ a.toList = b.toList := by
  constructor
  · intro h; rw [h]
  · intro h
    cases a with
    | mk da =>
      cases b with
      | mk db =>
        simp only [String.toList] at h
        rw [h]

/-- C4 amended: restricted to already-stripped, non-empty, non-comment
patterns and to non-hidden file names, `_should_ignore` with a single
wildcard pattern matches a newline-free name exactly when the anchored
shell glob matches it, and a wildcard-free pattern matches exactly the
name equal to it.  (The counterexamples show each restriction is needed:
names containing newlines diverge because Python's `.` and `$` treat
newlines specially, hidden names are always ignored, comment patterns
never match, and patterns are stripped before matching.) -/
theorem should_ignore_glob_amended (p name : String)
    (hstrip : pyStrip p = p) (hne : p ≠ "")
    (hcomment : p.toList.head? ≠ some '#')
    (hhidden : name.toList.head? ≠ some '.') :
    ((p.toList.contains '*' || p.toList.contains '?') = true →
      noNL name.toList = true →
      should_ignore name [p] = globMatch p name) ∧
    ((p.toList.contains '*' || p.toList.contains '?') = false →
      (should_ignore name [p] = true ↔ name = p)) := by
  have hstripL : pyStripL p.toList = p.toList := by
    have := congrArg String.data hstrip
    simpa [pyStrip, String.toList] using this
  obtain ⟨c, rest, hp⟩ : ∃ c rest, p.toList = c :: rest := by
    rcases hl : p.toList with _ | ⟨c, rest⟩
    · exact absurd hl (toList_ne_nil hne)
    · exact ⟨c, rest, rfl⟩
  have hkey : pyStripL p.toList = c :: rest := hstripL.trans hp
  have hc : (c == '#') = false := by
    rcases hb : c == '#' with _ | _
    · rfl
    · have : c = '#' := eq_of_beq hb
      subst this
      exact absurd (by rw [hp]; rfl) hcomment
  have hhid : hiddenName name = false := by
    rw [hiddenName]
    rcases hn : name.toList with _ | ⟨d, ds⟩
    · rfl
    · have hd : (d == '.') = false := by
        rcases hb : d == '.' with _ | _
        · rfl
        · have : d = '.' := eq_of_beq hb
          subst this
          exact absurd (by rw [hn]; rfl) hhidden
      exact hd
  have hsi : should_ignore name [p] = matchOnePattern name p := by
    simp [should_ignore, hhid]
  have hmo : matchOnePattern name p =
      (if (c :: rest).contains '*' || (c :: rest).contains '?' then
        rmatchD (toks (c :: rest)) name.toList
      else name.toList == c :: rest) := by
    rw [matchOnePattern.eq_def, hkey]
    simp [hc]
  constructor
  · intro hw hnl
    have hw' : ((c :: rest).contains '*' || (c :: rest).contains '?') = true := by
      rw [← hp]; exact hw
    rw [hsi, hmo, if_pos hw', rmatchD_eq_rOK _ _ hnl, rOK_eq_gOK _ _ hnl, globMatch, hp]
  · intro hw
    have hw' : ((c :: rest).contains '*' || (c :: rest).contains '?') = false := by
      rw [← hp]; exact hw
    rw [hsi, hmo, if_neg (by rw [hw']; exact Bool.false_ne_true)]
    rw [string_eq_iff_toList (a := name) (b := p), hp]
    exact beq_iff_eq

/-- C4 witness: the amended theorem applied at the stripped wildcard
pattern matching a newline-free visible name, and at a wildcard-free
literal pattern. -/
theorem should_ignore_glob_amended_witness :
    should_ignore "x.log" ["*.log"] = globMatch "*.log" "x.log" ∧
    (should_ignore "a.py" ["a.py"] = true ↔ ("a.py" : String) = "a.py") :=
  ⟨(should_ignore_glob_amended "*.log" "x.log" (by decide) (by decide) (by decide)
      (by decide)).1 (by decide) (by decide),
   (should_ignore_glob_amended "a.py" "a.py" (by decide) (by decide) (by decide)
      (by decide)).2 (by decide)⟩

theorem sconcat_nil : sconcat [] = "" := rfl

theorem sconcat_cons (x : String) (l : List String) : sconcat (x :: l) = x ++ sconcat l := rfl

theorem sconcat_append (a b : List String) :
    sconcat (a ++ b) = sconcat a ++ sconcat b := by
  induction a with
  | nil => rw [List.nil_append, sconcat_nil, String.empty_append]
  | cons x xs ih =>
    rw [List.cons_append, sconcat_cons, ih, sconcat_cons, String.append_assoc]

/-- C3: `_build_prompt` produces exactly the directory layout of the full
file list followed, for each file whose content could be read and in
sorted relative-path order, by the block consisting of the START marker
line, the sanitized content and the END marker line; files whose content
could not be read (content `none`) contribute nothing to the body yet
still participate in the layout, and the result is a pure — hence
deterministic — function of the file set and the file contents. -/
theorem build_prompt_document_format (root : String) (files : List (List String))
    (content : List String → Option String) :
    build_prompt root files content =
      build_directory_layout root files ++
      sconcat ((sortPaths files).map (fun p =>
        match content p with
        | none => ""
        | some c =>
          "\n+++ " ++ relPathStr p ++ " START +++\n" ++ sanitize_for_json c ++
            "\n+++ " ++ relPathStr p ++ " END +++\n")) := by
  simp only [build_prompt]
  congr 1
  generalize sortPaths files = l
  induction l with
  | nil => rfl
  | cons p l ih =>
    rw [List.flatMap_cons, List.map_cons, sconcat_append, sconcat_cons, ← ih]
    congr 1
    cases content p with
    | none => rfl
    | some c =>
      simp only [sconcat_cons, sconcat_nil, String.append_empty, String.append_assoc]
